import Mathlib

/-!
Shallow embedding of the reconciliation core of `src/seller.py`:
the stock reconciler `create_stocks`, the price reconciler `create_prices`,
the price normalizer `price_conversion`, the chunking generator `divide`,
and the stock-then-price sequence of `main`.  Python dictionaries with the
fixed keys "Код" (code), "Количество" (quantity) and "Цена" (price) are
modelled as a record type; the mutable `offer_ids` list is threaded
explicitly; exceptions are modelled with `Except`.
-/

namespace Seller

/-- Exceptions that the modelled code can raise: `valueError` models the
`ValueError` of `int()` on a non-numeric string and of `range()` with zero
step; `attributeError` models the `AttributeError` raised by `.split` on a
non-string value. -/
inductive PyErr where
  | valueError : PyErr
  | attributeError : PyErr
deriving DecidableEq

/-- Dynamic values, as far as `price_conversion` can observe them: a string,
or some non-string value (integer, float, None).  Only strings have the
`.split` method. -/
inductive PyVal where
  | vstr : String → PyVal
  | vint : Int → PyVal
  | vfloat : Int → Int → PyVal
  | vnone : PyVal
deriving DecidableEq

/-- One row of the distributor file (`watch_remnants` entry), with the keys
used by `seller.py`: "Код" (kod), "Количество" (kolichestvo), "Цена" (tsena).
The code and quantity are taken stringified, as the source does with
`str(watch.get(...))`; the price field is a string per the data model. -/
structure DistRecord where
  kod : String
  kolichestvo : String
  tsena : String
deriving DecidableEq

/-- A stock update entry `{"offer_id": ..., "stock": ...}`. -/
structure StockEntry where
  offer_id : String
  stock : Int
deriving DecidableEq

/-- A price update entry as built by `create_prices`. -/
structure PriceEntry where
  auto_action_enabled : String
  currency_code : String
  offer_id : String
  old_price : String
  price : String
deriving DecidableEq

/-- Value of a non-empty list of decimal digits. -/
def digitsVal (cs : List Char) : Nat :=
  cs.foldl (fun n c => 10 * n + (c.toNat - 48)) 0

/-- Digit-sequence part of `int()`: a non-empty all-digit character list
parses to its value, anything else fails. -/
def pyIntDigits : List Char → Option Nat
  | [] => none
  | cs => if cs.all Char.isDigit then some (digitsVal cs) else none

/-- Model of Python `int(s)` on a string: an optional sign followed by a
non-empty run of decimal digits parses, anything else raises `ValueError`
(modelled as `none`).  Whitespace stripping and underscore grouping of the
real `int()` are not modelled; the distributor quantity fields in scope are
bare digit strings or the sentinels ">10" / "1". -/
def pyInt (s : String) : Option Int :=
  match s.data with
  | '-' :: cs => (pyIntDigits cs).map (fun n => -(n : Int))
  | '+' :: cs => (pyIntDigits cs).map (fun n => (n : Int))
  | cs => (pyIntDigits cs).map (fun n => (n : Int))

/-- Helper for `pySplit`: scan the characters, cutting at the separator. -/
def pySplitAux (sep : Char) : List Char → List Char → List String
  | [], acc => [String.mk acc.reverse]
  | c :: cs, acc =>
    if c = sep then String.mk acc.reverse :: pySplitAux sep cs []
    else pySplitAux sep cs (c :: acc)

/-- Model of Python `s.split(sep)` for a one-character separator: the list of
maximal separator-free segments (always non-empty; `"".split(".") == [""]`). -/
def pySplit (sep : Char) (s : String) : List String :=
  pySplitAux sep s.data []

/-- Model of `re.sub("[^0-9]", "", s)`: delete every character outside the
ASCII digits 0-9. -/
def re_sub_non_digits (s : String) : String :=
  String.mk (s.data.filter Char.isDigit)

/-- String branch of `price_conversion`:
`re.sub("[^0-9]", "", price.split(".")[0])`. -/
def price_conversion_str (price : String) : String :=
  re_sub_non_digits ((pySplit '.' price).headD "")

/-- Translation of `price_conversion` (seller.py lines 274-296).  On a string
it keeps the digits of the segment before the first "."; on any non-string
value the attribute access `price.split` raises `AttributeError`. -/
def price_conversion : PyVal → Except PyErr String
  | .vstr price => .ok (price_conversion_str price)
  | _ => .error .attributeError

/-- Loop of `create_stocks` (seller.py lines 202-212): for each distributor
row whose code is in the current `offer_ids` list, convert the quantity
(">10" to 100, "1" to 0, otherwise `int()`, which may raise), append the
entry, and remove the code from `offer_ids` (`list.remove` deletes the first
occurrence, i.e. `List.erase`). -/
def create_stocks_loop : List DistRecord → List String → List StockEntry →
    Except PyErr (List StockEntry × List String)
  | [], offer_ids, stocks => .ok (stocks, offer_ids)
  | watch :: rest, offer_ids, stocks =>
    if watch.kod ∈ offer_ids then
      if watch.kolichestvo = ">10" then
        create_stocks_loop rest (offer_ids.erase watch.kod)
          (stocks ++ [⟨watch.kod, 100⟩])
      else if watch.kolichestvo = "1" then
        create_stocks_loop rest (offer_ids.erase watch.kod)
          (stocks ++ [⟨watch.kod, 0⟩])
      else
        match pyInt watch.kolichestvo with
        | some stock =>
            create_stocks_loop rest (offer_ids.erase watch.kod)
              (stocks ++ [⟨watch.kod, stock⟩])
        | none => .error .valueError
    else
      create_stocks_loop rest offer_ids stocks

/-- Translation of `create_stocks` (seller.py lines 165-216): run the
matching loop, then append `{"offer_id": i, "stock": 0}` for every offer id
still in the (mutated) `offer_ids` list.  The second component is the final
state of the mutated `offer_ids` list, which the Python caller keeps holding. -/
def create_stocks (watch_remnants : List DistRecord) (offer_ids : List String) :
    Except PyErr (List StockEntry × List String) :=
  match create_stocks_loop watch_remnants offer_ids [] with
  | .ok (stocks, remaining) =>
      .ok (stocks ++ remaining.map (fun offer_id => ⟨offer_id, 0⟩), remaining)
  | .error e => .error e

/-- The price entry built for one distributor row (seller.py lines 263-269).
The price field is a string, so `price_conversion` always takes its string
branch, computed by `price_conversion_str`. -/
def price_entry_of (watch : DistRecord) : PriceEntry :=
  { auto_action_enabled := "UNKNOWN"
    currency_code := "RUB"
    offer_id := watch.kod
    old_price := "0"
    price := price_conversion_str watch.tsena }

/-- Loop of `create_prices` (seller.py lines 260-271): membership test only,
`offer_ids` is threaded through unchanged (the Python loop never mutates it). -/
def create_prices_loop : List DistRecord → List String → List PriceEntry →
    (List PriceEntry × List String)
  | [], offer_ids, prices => (prices, offer_ids)
  | watch :: rest, offer_ids, prices =>
    if watch.kod ∈ offer_ids then
      create_prices_loop rest offer_ids (prices ++ [price_entry_of watch])
    else
      create_prices_loop rest offer_ids prices

/-- Translation of `create_prices` (seller.py lines 219-271).  The second
component is the `offer_ids` list as the caller sees it afterwards. -/
def create_prices (watch_remnants : List DistRecord) (offer_ids : List String) :
    List PriceEntry × List String :=
  create_prices_loop watch_remnants offer_ids []

/-- Successive slices `lst[i:i+n]` for `i = 0, n, 2n, ...` below `lst.length`,
for a positive step `n`: the body of the `divide` generator once the `range`
is known to count upward.  Each iteration yields `lst.take n` and continues
on `lst.drop n`. -/
def chunks (n : Nat) (lst : List α) : List (List α) :=
  if h : lst.length = 0 ∨ n = 0 then []
  else lst.take n :: chunks n (lst.drop n)
termination_by lst.length
decreasing_by
  rcases not_or.mp h with ⟨h1, h2⟩
  simp only [List.length_drop]
  omega

/-- Translation of `divide` (seller.py lines 299-324):
`for i in range(0, len(lst), n): yield lst[i : i + n]`, materialised as the
caller does with `list(divide(...))`.  `range` with step 0 raises
`ValueError`; with a negative step and stop `len(lst) ≥ 0` it is empty, so
the generator silently yields nothing. -/
def divide (lst : List α) (n : Int) : Except PyErr (List (List α)) :=
  if n = 0 then .error .valueError
  else if n < 0 then .ok []
  else .ok (chunks n.toNat lst)

/-- The stock-then-price part of `main` (seller.py lines 395-405): the same
`offer_ids` list object is passed to `create_stocks`, which mutates it, and
then to `create_prices`. -/
def main_sync (watch_remnants : List DistRecord) (offer_ids : List String) :
    Except PyErr (List StockEntry × List PriceEntry) :=
  match create_stocks watch_remnants offer_ids with
  | .error e => .error e
  | .ok (stocks, offer_ids2) =>
      .ok (stocks, (create_prices watch_remnants offer_ids2).1)

/-! ## Helper lemmas for the price normalizer -/

/-- Head of the split: scanning with accumulator `acc`, the first segment is
the reversed accumulator followed by the characters before the first
separator. -/
theorem pySplitAux_headD (sep : Char) :
    ∀ (cs acc : List Char),
      (pySplitAux sep cs acc).headD "" =
        String.mk (acc.reverse ++ cs.takeWhile (fun c => c != sep))
  | [], acc => by simp [pySplitAux]
  | c :: cs, acc => by
    by_cases h : c = sep
    · subst h
      simp [pySplitAux, List.takeWhile_cons]
    · simp only [pySplitAux, if_neg h, List.takeWhile_cons]
      rw [pySplitAux_headD sep cs (c :: acc)]
      simp [h]

/-- The first segment of `s.split(".")` is the prefix of `s` before the
first dot. -/
theorem pySplit_headD (sep : Char) (s : String) :
    (pySplit sep s).headD "" = String.mk (s.data.takeWhile (fun c => c != sep)) := by
  simpa using pySplitAux_headD sep s.data []

/-- The string branch of the price normaliser equals: digits of the portion
before the first dot. -/
theorem price_conversion_str_eq (p : String) :
    price_conversion_str p =
      String.mk ((p.data.takeWhile (fun c => c != '.')).filter Char.isDigit) := by
  unfold price_conversion_str re_sub_non_digits
  rw [pySplit_headD]

/-! ## Claim theorems: price normalizer and chunking -/

/-- Claim C6: for every string input, the price normalizer returns the
digits of the portion before the first ".", all non-digit characters
removed; in particular the spec examples hold, and an input with no digit
before the first "." yields the empty string. -/
theorem c6_price_normalizer (p : String) :
    price_conversion (PyVal.vstr p) =
        .ok (String.mk ((p.data.takeWhile (fun c => c != '.')).filter Char.isDigit))
      ∧ price_conversion (PyVal.vstr "13\x27899.99 руб.") = .ok "13899"
      ∧ price_conversion (PyVal.vstr "5\x27990.00 руб.") = .ok "5990"
      ∧ price_conversion (PyVal.vstr "1.234.567 руб.") = .ok "1"
      ∧ price_conversion (PyVal.vstr ".99 руб.") = .ok "" := by
  refine ⟨?_, rfl, rfl, rfl, rfl⟩
  simp only [price_conversion, price_conversion_str_eq]

/-- Claim C7: for every non-string input, the price normalizer fails with
the type-mismatch condition (the attribute access `price.split` fails);
numeric input is never coerced into a string result. -/
theorem c7_non_string_price_fails (v : PyVal) (h : ∀ s, v ≠ PyVal.vstr s) :
    price_conversion v = .error PyErr.attributeError := by
  cases v with
  | vstr s => exact absurd rfl (h s)
  | vint n => rfl
  | vfloat m e => rfl
  | vnone => rfl

/-- Witness for C7 at the float input of the docstring example. -/
theorem c7_witness :
    price_conversion (PyVal.vfloat 6300 50) = .error PyErr.attributeError :=
  c7_non_string_price_fails (PyVal.vfloat 6300 50) (fun _ h => PyVal.noConfusion h)

/-- Claim C5 (divergence witness): for the negative chunk size -1 the code
silently yields an empty result instead of failing, while chunk size 0 does
fail (the `range` step check). -/
theorem c5_divide_nonpositive :
    divide ([1, 2, 3] : List Nat) (-1) = .ok []
      ∧ divide ([1, 2, 3] : List Nat) 0 = .error PyErr.valueError :=
  ⟨rfl, rfl⟩

/-! ## Helper lemmas for the price reconciler -/

/-- The loop of `create_prices` appends exactly one entry per record whose
code passes the membership test, and threads `offer_ids` unchanged. -/
theorem create_prices_loop_spec :
    ∀ (records : List DistRecord) (ids : List String) (acc : List PriceEntry),
      create_prices_loop records ids acc =
        (acc ++ (records.filter (fun w => decide (w.kod ∈ ids))).map price_entry_of, ids)
  | [], ids, acc => by simp [create_prices_loop]
  | w :: ws, ids, acc => by
    by_cases h : w.kod ∈ ids
    · simp [create_prices_loop, h, create_prices_loop_spec ws ids (acc ++ [price_entry_of w])]
    · simp [create_prices_loop, h, create_prices_loop_spec ws ids acc]

/-- First component of `create_prices` in filter-map form. -/
theorem create_prices_fst (records : List DistRecord) (ids : List String) :
    (create_prices records ids).1 =
      (records.filter (fun w => decide (w.kod ∈ ids))).map price_entry_of := by
  simp [create_prices, create_prices_loop_spec]

/-- Second component of `create_prices`: the offer id list is unchanged. -/
theorem create_prices_snd (records : List DistRecord) (ids : List String) :
    (create_prices records ids).2 = ids := by
  simp [create_prices, create_prices_loop_spec]

/-- Claim C9: the price reconciler emits, in distributor-file order, one
entry with the fixed fields and normalized price per record whose code is in
the offer id list, skips non-matching records, and leaves the offer id list
unchanged; the normalizer applied to a string price is exactly
`price_conversion_str`. -/
theorem c9_price_reconciler (records : List DistRecord) (ids : List String) :
    (create_prices records ids).1 =
        (records.filter (fun w => decide (w.kod ∈ ids))).map
          (fun w => { auto_action_enabled := "UNKNOWN", currency_code := "RUB",
                      offer_id := w.kod, old_price := "0",
                      price := price_conversion_str w.tsena })
      ∧ (create_prices records ids).2 = ids
      ∧ ∀ s : String, price_conversion (PyVal.vstr s) = .ok (price_conversion_str s) :=
  ⟨create_prices_fst records ids, create_prices_snd records ids, fun _ => rfl⟩

/-- Claim C10: the price reconciler emits one entry per matching record, so
duplicate distributor codes give duplicate offer ids in the price output,
while the stock reconciler keeps only the first such record. -/
theorem c10_duplicate_codes :
    (∀ (records : List DistRecord) (ids : List String),
        (create_prices records ids).1.map (fun e => e.offer_id) =
          (records.filter (fun w => decide (w.kod ∈ ids))).map (fun w => w.kod))
      ∧ (create_prices [⟨"A", "5", "9"⟩, ⟨"A", "5", "9"⟩] ["A"]).1.map
          (fun e => e.offer_id) = ["A", "A"]
      ∧ create_stocks [⟨"A", "5", "9"⟩, ⟨"A", "5", "9"⟩] ["A"] = .ok ([⟨"A", 5⟩], []) := by
  refine ⟨?_, rfl, rfl⟩
  intro records ids
  rw [create_prices_fst, List.map_map]
  rfl

/-! ## Helper lemmas for the chunking utility -/

/-- Chunking the empty list yields no chunks. -/
theorem chunks_nil (n : Nat) : chunks n ([] : List α) = [] := by
  simp [chunks]

/-- Recursion equation of `chunks` on a non-empty list with positive size. -/
theorem chunks_cons (n : Nat) (hn : 0 < n) (l : List α) (hl : l ≠ []) :
    chunks n l = l.take n :: chunks n (l.drop n) := by
  rw [chunks]
  rw [dif_neg]
  push_neg
  exact ⟨by simpa [List.length_eq_zero] using hl, hn.ne'⟩

/-- Chunking a non-empty list yields at least one chunk. -/
theorem chunks_ne_nil (n : Nat) (hn : 0 < n) (l : List α) (hl : l ≠ []) :
    chunks n l ≠ [] := by
  rw [chunks_cons n hn l hl]
  exact List.cons_ne_nil _ _

/-- Concatenating the chunks reconstructs the list (length-indexed form). -/
theorem chunks_flatten_aux (n : Nat) (hn : 0 < n) :
    ∀ (k : Nat) (l : List α), l.length = k → (chunks n l).flatten = l := by
  intro k
  induction k using Nat.strong_induction_on with
  | _ k ih =>
    intro l hk
    by_cases hl : l = []
    · subst hl; simp [chunks_nil]
    · have hpos : 0 < l.length := List.length_pos.mpr hl
      rw [chunks_cons n hn l hl, List.flatten_cons]
      have hlt : (l.drop n).length < k := by
        simp only [List.length_drop]; omega
      rw [ih (l.drop n).length (by omega) (l.drop n) rfl]
      exact List.take_append_drop n l

/-- Concatenating the chunks reconstructs the list. -/
theorem chunks_flatten (n : Nat) (hn : 0 < n) (l : List α) : (chunks n l).flatten = l :=
  chunks_flatten_aux n hn l.length l rfl

/-- Every chunk but the last has length exactly `n`, and the last chunk has
length `l.length % n`, or `n` when `n` divides `l.length`
(length-indexed form). -/
theorem chunks_lengths_aux (n : Nat) (hn : 0 < n) :
    ∀ (k : Nat) (l : List α), l.length = k →
      (∀ c ∈ (chunks n l).dropLast, c.length = n) ∧
      (∀ h : chunks n l ≠ [], ((chunks n l).getLast h).length =
          if l.length % n = 0 then n else l.length % n) := by
  intro k
  induction k using Nat.strong_induction_on with
  | _ k ih =>
    intro l hk
    by_cases hl : l = []
    · subst hl
      refine ⟨?_, ?_⟩
      · intro c hc; rw [chunks_nil] at hc; simp at hc
      · intro h; exact absurd (chunks_nil n) h
    · have hpos : 0 < l.length := List.length_pos.mpr hl
      rw [chunks_cons n hn l hl]
      by_cases hd : l.drop n = []
      · have hle : l.length ≤ n := by
          have := List.drop_eq_nil_iff.mp hd
          exact this
        rw [hd, chunks_nil]
        refine ⟨?_, ?_⟩
        · intro c hc; simp at hc
        · intro h
          simp only [List.getLast_singleton]
          rw [List.length_take]
          rcases eq_or_lt_of_le hle with heq | hlt
          · rw [← heq]
            simp [Nat.mod_self, min_eq_right (le_of_eq heq.symm)]
          · rw [Nat.mod_eq_of_lt hlt]
            have : min n l.length = l.length := min_eq_right (le_of_lt hlt)
            simp [this, if_neg hpos.ne']
      · have hlen : n < l.length := by
          by_contra hcon
          push_neg at hcon
          exact hd (List.drop_eq_nil_iff.mpr hcon)
        have hrest : chunks n (l.drop n) ≠ [] := chunks_ne_nil n hn _ hd
        have hlt : (l.drop n).length < k := by
          simp only [List.length_drop]; omega
        have hih := ih (l.drop n).length (by omega) (l.drop n) rfl
        have hmod : (l.drop n).length % n = l.length % n := by
          simp only [List.length_drop]
          have hsum : l.length - n + n = l.length := Nat.sub_add_cancel (le_of_lt hlen)
          calc (l.length - n) % n = (l.length - n + n) % n := (Nat.add_mod_right _ n).symm
            _ = l.length % n := by rw [hsum]
        refine ⟨?_, ?_⟩
        · intro c hc
          rw [List.dropLast_cons_of_ne_nil hrest] at hc
          rcases List.mem_cons.mp hc with rfl | hc
          · rw [List.length_take]
            exact min_eq_left (le_of_lt hlen)
          · exact hih.1 c hc
        · intro h
          rw [List.getLast_cons hrest]
          rw [hih.2 hrest, hmod]

/-- Claim C4: for every list and every positive chunk size, the chunks
produced by `divide` concatenate back to the original list (every element
exactly once, in order); every chunk except possibly the last has length
exactly `n`, and the last has length `len mod n`, or `n` when `n` divides
the length. -/
theorem c4_divide_chunks {α : Type} (S : List α) (n : Int) (hn : 0 < n)
    (cs : List (List α)) (hcs : divide S n = .ok cs) :
    cs.flatten = S
      ∧ (∀ c ∈ cs.dropLast, c.length = n.toNat)
      ∧ ∀ h : cs ≠ [], (cs.getLast h).length =
          if S.length % n.toNat = 0 then n.toNat else S.length % n.toNat := by
  have hn0 : n ≠ 0 := hn.ne'
  have hneg : ¬ n < 0 := by omega
  have hpos : 0 < n.toNat := by omega
  unfold divide at hcs
  rw [if_neg hn0, if_neg hneg] at hcs
  have hcs' : chunks n.toNat S = cs := by
    exact Except.ok.inj hcs
  subst hcs'
  exact ⟨chunks_flatten n.toNat hpos S,
    (chunks_lengths_aux n.toNat hpos S.length S rfl).1,
    (chunks_lengths_aux n.toNat hpos S.length S rfl).2⟩

/-- Witness for C4 at the docstring example `divide([1,2,3,4,5], 2)`. -/
theorem c4_witness :
    ([[1, 2], [3, 4], [5]] : List (List Nat)).flatten = [1, 2, 3, 4, 5]
      ∧ (∀ c ∈ ([[1, 2], [3, 4], [5]] : List (List Nat)).dropLast, c.length = (2 : Int).toNat)
      ∧ ∀ h : ([[1, 2], [3, 4], [5]] : List (List Nat)) ≠ [],
          (([[1, 2], [3, 4], [5]] : List (List Nat)).getLast h).length =
            if ([1, 2, 3, 4, 5] : List Nat).length % (2 : Int).toNat = 0
            then (2 : Int).toNat
            else ([1, 2, 3, 4, 5] : List Nat).length % (2 : Int).toNat :=
  c4_divide_chunks [1, 2, 3, 4, 5] 2 (by decide) [[1, 2], [3, 4], [5]]
    (by simp [divide, chunks])

/-! ## Spec-side formulation of the stock reconciler (section 4.3 of the
spec, with the design-note formulation: the working set of remaining
identifiers is maintained by set difference instead of single-occurrence
removal). -/

/-- Spec rule for the stock value: 100 for ">10", 0 for "1", otherwise the
integer parse of the quantity. -/
def spec_stock_value (qty : String) : Int :=
  if qty = ">10" then 100 else if qty = "1" then 0 else (pyInt qty).getD 0

/-- Stock update entry for one matched distributor record, per the spec
rule. -/
def spec_stock_entry (watch : DistRecord) : StockEntry :=
  ⟨watch.kod, spec_stock_value watch.kolichestvo⟩

/-- Matched records (first match wins) and remaining identifiers, with the
remaining set maintained by filtering out each matched code. -/
def spec_reconcile : List DistRecord → List String → List DistRecord × List String
  | [], remaining => ([], remaining)
  | watch :: rest, remaining =>
    if watch.kod ∈ remaining then
      let p := spec_reconcile rest (remaining.filter (fun i => i != watch.kod))
      (watch :: p.1, p.2)
    else
      spec_reconcile rest remaining

/-- Expected reconciler output: converted matched entries first, then a
zero-stock entry per remaining identifier. -/
def spec_stocks_out (records : List DistRecord) (ids : List String) : List StockEntry :=
  (spec_reconcile records ids).1.map spec_stock_entry
    ++ (spec_reconcile records ids).2.map (fun i => ⟨i, 0⟩)

/-- A quantity field the reconciler can convert without raising: one of the
two sentinels, or a string accepted by `int()`. -/
def qty_ok (w : DistRecord) : Prop :=
  w.kolichestvo = ">10" ∨ w.kolichestvo = "1" ∨ (pyInt w.kolichestvo).isSome

instance (w : DistRecord) : Decidable (qty_ok w) := by
  unfold qty_ok; infer_instance

/-- Refinement of the source loop by the spec-side reconciler: on a
duplicate-free identifier list, with convertible quantities, the loop
returns the converted matched entries (appended to the accumulator) and the
filtered remaining set. -/
theorem create_stocks_loop_spec (records : List DistRecord) :
    ∀ (ids : List String) (acc : List StockEntry),
      ids.Nodup → (∀ w ∈ records, qty_ok w) →
      create_stocks_loop records ids acc =
        .ok (acc ++ (spec_reconcile records ids).1.map spec_stock_entry,
             (spec_reconcile records ids).2) := by
  induction records with
  | nil => intro ids acc _ _; simp [create_stocks_loop, spec_reconcile]
  | cons w ws ih =>
    intro ids acc hnd hq
    have hqw : qty_ok w := hq w (List.mem_cons_self _ _)
    have hqws : ∀ u ∈ ws, qty_ok u := fun u hu => hq u (List.mem_cons_of_mem _ hu)
    by_cases hmem : w.kod ∈ ids
    · have herase : ids.erase w.kod = ids.filter (fun i => i != w.kod) :=
        hnd.erase_eq_filter w.kod
      have hnd2 : (ids.filter (fun i => i != w.kod)).Nodup := hnd.filter _
      by_cases h10 : w.kolichestvo = ">10"
      · simp only [create_stocks_loop, if_pos hmem, if_pos h10]
        rw [herase, ih _ _ hnd2 hqws]
        simp [spec_reconcile, hmem, spec_stock_entry, spec_stock_value, h10]
      · by_cases h1 : w.kolichestvo = "1"
        · simp only [create_stocks_loop, if_pos hmem, if_neg h10, if_pos h1]
          rw [herase, ih _ _ hnd2 hqws]
          simp [spec_reconcile, hmem, spec_stock_entry, spec_stock_value, h10, h1]
        · have hsome : (pyInt w.kolichestvo).isSome := by
            rcases hqw with h | h | h
            · exact absurd h h10
            · exact absurd h h1
            · exact h
          obtain ⟨v, hv⟩ := Option.isSome_iff_exists.mp hsome
          simp only [create_stocks_loop, if_pos hmem, if_neg h10, if_neg h1, hv]
          rw [herase, ih _ _ hnd2 hqws]
          simp [spec_reconcile, hmem, spec_stock_entry, spec_stock_value, h10, h1, hv]
    · simp only [create_stocks_loop, if_neg hmem]
      rw [ih _ _ hnd hqws]
      simp [spec_reconcile, hmem]

/-- The remaining identifiers are the original ones not bearing a matched
code, in original order. -/
theorem spec_reconcile_snd (records : List DistRecord) :
    ∀ ids : List String,
      (spec_reconcile records ids).2 =
        ids.filter (fun i => decide (i ∉ (spec_reconcile records ids).1.map DistRecord.kod)) := by
  induction records with
  | nil => intro ids; simp [spec_reconcile]
  | cons w ws ih =>
    intro ids
    by_cases hmem : w.kod ∈ ids
    · simp only [spec_reconcile, if_pos hmem]
      rw [ih]
      rw [List.filter_filter]
      apply List.filter_congr
      intro i _
      by_cases h1 : i = w.kod <;>
        by_cases h2 : i ∈ (spec_reconcile ws (ids.filter (fun j => j != w.kod))).1.map DistRecord.kod <;>
        simp [h1, h2]
    · simp only [spec_reconcile, if_neg hmem]
      exact ih ids

/-- Every matched code comes from the identifier list it was matched
against. -/
theorem spec_reconcile_codes_subset (records : List DistRecord) :
    ∀ (ids : List String), ∀ a ∈ (spec_reconcile records ids).1.map DistRecord.kod, a ∈ ids := by
  induction records with
  | nil => intro ids a ha; simp [spec_reconcile] at ha
  | cons w ws ih =>
    intro ids a ha
    by_cases hmem : w.kod ∈ ids
    · simp only [spec_reconcile, if_pos hmem, List.map_cons, List.mem_cons] at ha
      rcases ha with rfl | ha
      · exact hmem
      · exact (List.mem_filter.mp (ih _ a ha)).1
    · simp only [spec_reconcile, if_neg hmem] at ha
      exact ih ids a ha

/-- The matched codes are pairwise distinct (first match wins). -/
theorem spec_reconcile_codes_nodup (records : List DistRecord) :
    ∀ ids : List String, ((spec_reconcile records ids).1.map DistRecord.kod).Nodup := by
  induction records with
  | nil => intro ids; simp [spec_reconcile]
  | cons w ws ih =>
    intro ids
    by_cases hmem : w.kod ∈ ids
    · simp only [spec_reconcile, if_pos hmem, List.map_cons]
      rw [List.nodup_cons]
      refine ⟨?_, ih _⟩
      intro hcon
      have := spec_reconcile_codes_subset ws _ _ hcon
      simp [List.mem_filter] at this
    · simp only [spec_reconcile, if_neg hmem]
      exact ih ids

/-- Claim C2 (amended: the offer-id list is duplicate-free): the stock
reconciler maps ">10" to 100, "1" to 0 and any other quantity to its integer
parse; the output is the matched entries in distributor-file order followed
by zero-stock entries for the remaining identifiers in original marketplace
order, and every original offer identifier appears exactly once. -/
theorem c2_stock_reconciler (records : List DistRecord) (ids : List String)
    (hnd : ids.Nodup) (hq : ∀ w ∈ records, qty_ok w) :
    create_stocks records ids =
        .ok (spec_stocks_out records ids, (spec_reconcile records ids).2)
      ∧ (spec_reconcile records ids).2 =
          ids.filter (fun i => decide (i ∉ (spec_reconcile records ids).1.map DistRecord.kod))
      ∧ ∀ i ∈ ids,
          List.count i ((spec_stocks_out records ids).map (fun e => e.offer_id)) = 1 := by
  refine ⟨?_, spec_reconcile_snd records ids, ?_⟩
  · unfold create_stocks
    rw [create_stocks_loop_spec records ids [] hnd hq]
    simp [spec_stocks_out]
  · intro i hi
    have hmap : (spec_stocks_out records ids).map (fun e => e.offer_id) =
        (spec_reconcile records ids).1.map DistRecord.kod ++ (spec_reconcile records ids).2 := by
      simp [spec_stocks_out, List.map_map, Function.comp_def, spec_stock_entry]
    rw [hmap, List.count_append, spec_reconcile_snd records ids]
    by_cases hic : i ∈ (spec_reconcile records ids).1.map DistRecord.kod
    · have h1 : List.count i ((spec_reconcile records ids).1.map DistRecord.kod) = 1 :=
        List.count_eq_one_of_mem (spec_reconcile_codes_nodup records ids) hic
      have h0 : List.count i
          (ids.filter (fun j => decide (j ∉ (spec_reconcile records ids).1.map DistRecord.kod))) = 0 := by
        rw [List.count_eq_zero]
        intro hmem
        have := (List.mem_filter.mp hmem).2
        rw [decide_eq_true_eq] at this
        exact this hic
      omega
    · have h1 : List.count i ((spec_reconcile records ids).1.map DistRecord.kod) = 0 :=
        List.count_eq_zero.mpr hic
      have h2 : List.count i
          (ids.filter (fun j => decide (j ∉ (spec_reconcile records ids).1.map DistRecord.kod))) = 1 := by
        refine List.count_eq_one_of_mem (hnd.filter _) ?_
        exact List.mem_filter.mpr ⟨hi, by simpa using hic⟩
      omega

/-- Witness for C2 at the spec example: one matched record, one remaining
identifier. -/
theorem c2_witness :
    create_stocks [⟨"A", "5", "x"⟩] ["A", "B"] = .ok ([⟨"A", 5⟩, ⟨"B", 0⟩], ["B"]) := by
  have h := (c2_stock_reconciler [⟨"A", "5", "x"⟩] ["A", "B"] (by decide) (by decide)).1
  rw [h]
  rfl

/-- Counterexample for C2 as stated: with a duplicated identifier in the
marketplace list, the identifier "A" appears twice in the output, not
exactly once. -/
theorem c2_counterexample :
    create_stocks [⟨"A", "5", "x"⟩] ["A", "A"] = .ok ([⟨"A", 5⟩, ⟨"A", 0⟩], ["A"])
      ∧ List.count "A"
          (([⟨"A", 5⟩, ⟨"A", 0⟩] : List StockEntry).map (fun e => e.offer_id)) = 2 :=
  ⟨rfl, rfl⟩

/-- Every stock the loop emits is within the bounds satisfied by the
converted quantities of its records and of its accumulator. -/
theorem create_stocks_loop_bounds (records : List DistRecord) :
    ∀ (ids : List String) (acc out : List StockEntry) (rem : List String),
      (∀ w ∈ records, w.kolichestvo = ">10" ∨ w.kolichestvo = "1" ∨
          ∃ v, pyInt w.kolichestvo = some v ∧ 0 ≤ v ∧ v ≤ 100) →
      (∀ e ∈ acc, 0 ≤ e.stock ∧ e.stock ≤ 100) →
      create_stocks_loop records ids acc = .ok (out, rem) →
      ∀ e ∈ out, 0 ≤ e.stock ∧ e.stock ≤ 100 := by
  induction records with
  | nil =>
    intro ids acc out rem _ hacc heq
    simp only [create_stocks_loop, Except.ok.injEq, Prod.mk.injEq] at heq
    rw [← heq.1]
    exact hacc
  | cons w ws ih =>
    intro ids acc out rem hq hacc heq
    have hqws : ∀ u ∈ ws, u.kolichestvo = ">10" ∨ u.kolichestvo = "1" ∨
        ∃ v, pyInt u.kolichestvo = some v ∧ 0 ≤ v ∧ v ≤ 100 :=
      fun u hu => hq u (List.mem_cons_of_mem _ hu)
    by_cases hmem : w.kod ∈ ids
    · by_cases h10 : w.kolichestvo = ">10"
      · simp only [create_stocks_loop, if_pos hmem, if_pos h10] at heq
        refine ih _ _ _ _ hqws ?_ heq
        intro e he
        rcases List.mem_append.mp he with he | he
        · exact hacc e he
        · rw [List.mem_singleton] at he
          subst he
          exact ⟨by norm_num, by norm_num⟩
      · by_cases h1 : w.kolichestvo = "1"
        · simp only [create_stocks_loop, if_pos hmem, if_neg h10, if_pos h1] at heq
          refine ih _ _ _ _ hqws ?_ heq
          intro e he
          rcases List.mem_append.mp he with he | he
          · exact hacc e he
          · rw [List.mem_singleton] at he
            subst he
            exact ⟨by norm_num, by norm_num⟩
        · obtain ⟨v, hv, hv0, hv100⟩ : ∃ v, pyInt w.kolichestvo = some v ∧ 0 ≤ v ∧ v ≤ 100 := by
            rcases hq w (List.mem_cons_self _ _) with h | h | h
            · exact absurd h h10
            · exact absurd h h1
            · exact h
          simp only [create_stocks_loop, if_pos hmem, if_neg h10, if_neg h1, hv] at heq
          refine ih _ _ _ _ hqws ?_ heq
          intro e he
          rcases List.mem_append.mp he with he | he
          · exact hacc e he
          · rw [List.mem_singleton] at he
            subst he
            exact ⟨hv0, hv100⟩
    · simp only [create_stocks_loop, if_neg hmem] at heq
      exact ih _ _ _ _ hqws hacc heq

/-- Claim C3 (amended: each plain quantity parses to a value of at most
100): every stock value produced by the stock reconciler is an integer in
the range 0..100. -/
theorem c3_stock_bounds (records : List DistRecord) (ids : List String)
    (hq : ∀ w ∈ records, w.kolichestvo = ">10" ∨ w.kolichestvo = "1" ∨
        ∃ v, pyInt w.kolichestvo = some v ∧ 0 ≤ v ∧ v ≤ 100)
    (out : List StockEntry) (rem : List String)
    (hok : create_stocks records ids = .ok (out, rem)) :
    ∀ e ∈ out, 0 ≤ e.stock ∧ e.stock ≤ 100 := by
  unfold create_stocks at hok
  cases hloop : create_stocks_loop records ids [] with
  | error e => rw [hloop] at hok; cases hok
  | ok p =>
    obtain ⟨stocks, remaining⟩ := p
    rw [hloop] at hok
    simp only [Except.ok.injEq, Prod.mk.injEq] at hok
    intro e he
    rw [← hok.1] at he
    rcases List.mem_append.mp he with he | he
    · exact create_stocks_loop_bounds records ids [] stocks remaining hq (by simp) hloop e he
    · obtain ⟨i, _, rfl⟩ := List.mem_map.mp he
      exact ⟨by norm_num, by norm_num⟩

/-- Witness for C3 at a sentinel quantity. -/
theorem c3_witness :
    (0 : Int) ≤ (StockEntry.mk "A" 100).stock ∧ (StockEntry.mk "A" 100).stock ≤ 100 :=
  c3_stock_bounds [⟨"A", ">10", "x"⟩] ["A"]
    (by intro w hw; rw [List.mem_singleton] at hw; subst hw; exact Or.inl rfl)
    [⟨"A", 100⟩] [] rfl ⟨"A", 100⟩ (List.mem_singleton.mpr rfl)

/-- Counterexample for C3 as stated: the digit-string quantity "500" is not
clamped, the produced stock is 500, outside 0..100. -/
theorem c3_counterexample :
    create_stocks [⟨"A", "500", "x"⟩] ["A"] = .ok ([⟨"A", 500⟩], [])
      ∧ ¬ ((500 : Int) ≤ 100) :=
  ⟨rfl, by decide⟩

/-- Splitting the record list splits the loop: the second half runs on the
state the first half produced, and an error in the first half propagates. -/
theorem create_stocks_loop_append (xs : List DistRecord) :
    ∀ (ys : List DistRecord) (ids : List String) (acc : List StockEntry),
      create_stocks_loop (xs ++ ys) ids acc =
        match create_stocks_loop xs ids acc with
        | .ok p => create_stocks_loop ys p.2 p.1
        | .error e => .error e := by
  induction xs with
  | nil => intro ys ids acc; simp [create_stocks_loop]
  | cons w ws ih =>
    intro ys ids acc
    by_cases hmem : w.kod ∈ ids
    · by_cases h10 : w.kolichestvo = ">10"
      · simp only [List.cons_append, create_stocks_loop, if_pos hmem, if_pos h10]
        exact ih ys _ _
      · by_cases h1 : w.kolichestvo = "1"
        · simp only [List.cons_append, create_stocks_loop, if_pos hmem, if_neg h10, if_pos h1]
          exact ih ys _ _
        · cases hv : pyInt w.kolichestvo with
          | some v =>
            simp only [List.cons_append, create_stocks_loop, if_pos hmem, if_neg h10,
              if_neg h1, hv]
            exact ih ys _ _
          | none =>
            simp only [List.cons_append, create_stocks_loop, if_pos hmem, if_neg h10,
              if_neg h1, hv]
    · simp only [List.cons_append, create_stocks_loop, if_neg hmem]
      exact ih ys _ _

/-- Claim C8: a record whose code is still present in the working identifier
list when it is reached, and whose quantity is neither sentinel nor numeric,
makes the stock reconciler fail with the parse error, which propagates out
of `create_stocks` uncaught. -/
theorem c8_parse_error (pre : List DistRecord) (w : DistRecord) (post : List DistRecord)
    (ids : List String) (stocks : List StockEntry) (ids2 : List String)
    (hpre : create_stocks_loop pre ids [] = .ok (stocks, ids2))
    (hmem : w.kod ∈ ids2)
    (h10 : w.kolichestvo ≠ ">10") (h1 : w.kolichestvo ≠ "1")
    (hbad : pyInt w.kolichestvo = none) :
    create_stocks (pre ++ w :: post) ids = .error PyErr.valueError := by
  unfold create_stocks
  rw [create_stocks_loop_append pre (w :: post) ids [], hpre]
  simp only [create_stocks_loop, if_pos hmem, if_neg h10, if_neg h1, hbad]

/-- Witness for C8: quantity "abc" on a matched record raises. -/
theorem c8_witness :
    create_stocks [⟨"B", "abc", "x"⟩] ["B"] = .error PyErr.valueError :=
  c8_parse_error [] ⟨"B", "abc", "x"⟩ [] ["B"] [] ["B"] rfl (by decide)
    (by decide) (by decide) rfl

/-- Inversion of one successful loop step: either the head record matched
(some stock value was appended, its code erased), or it did not match and
the state passed through. -/
theorem create_stocks_loop_cons_ok (r : DistRecord) (rs : List DistRecord)
    (ids : List String) (acc out : List StockEntry) (rem : List String)
    (heq : create_stocks_loop (r :: rs) ids acc = .ok (out, rem)) :
    (r.kod ∈ ids ∧ ∃ v, create_stocks_loop rs (ids.erase r.kod)
        (acc ++ [⟨r.kod, v⟩]) = .ok (out, rem))
      ∨ (r.kod ∉ ids ∧ create_stocks_loop rs ids acc = .ok (out, rem)) := by
  by_cases hmem : r.kod ∈ ids
  · left
    refine ⟨hmem, ?_⟩
    simp only [create_stocks_loop, if_pos hmem] at heq
    by_cases h10 : r.kolichestvo = ">10"
    · rw [if_pos h10] at heq; exact ⟨100, heq⟩
    · rw [if_neg h10] at heq
      by_cases h1 : r.kolichestvo = "1"
      · rw [if_pos h1] at heq; exact ⟨0, heq⟩
      · rw [if_neg h1] at heq
        cases hv : pyInt r.kolichestvo with
        | some v => rw [hv] at heq; exact ⟨v, heq⟩
        | none => rw [hv] at heq; cases heq
  · right
    refine ⟨hmem, ?_⟩
    simpa only [create_stocks_loop, if_neg hmem] using heq

/-- The final state of the mutated identifier list only ever shrinks. -/
theorem create_stocks_loop_rem_subset (records : List DistRecord) :
    ∀ (ids : List String) (acc out : List StockEntry) (rem : List String),
      create_stocks_loop records ids acc = .ok (out, rem) → rem ⊆ ids := by
  induction records with
  | nil =>
    intro ids acc out rem heq
    simp only [create_stocks_loop, Except.ok.injEq, Prod.mk.injEq] at heq
    rw [← heq.2]
    exact fun a ha => ha
  | cons r rs ih =>
    intro ids acc out rem heq
    rcases create_stocks_loop_cons_ok r rs ids acc out rem heq with
      ⟨hmem, v, heq'⟩ | ⟨hmem, heq'⟩
    · exact (ih _ _ _ _ heq').trans (List.erase_subset _ _)
    · exact ih _ _ _ _ heq'

/-- After a successful run on a duplicate-free identifier list, no record
code is left in the mutated identifier list: every record whose code was
present got matched (and its code removed), and absent codes were never
there. -/
theorem create_stocks_loop_codes_gone (records : List DistRecord) :
    ∀ (ids : List String) (acc out : List StockEntry) (rem : List String),
      ids.Nodup → create_stocks_loop records ids acc = .ok (out, rem) →
      ∀ w ∈ records, w.kod ∉ rem := by
  induction records with
  | nil => intro ids acc out rem _ _ w hw; simp at hw
  | cons r rs ih =>
    intro ids acc out rem hnd heq w hw
    rcases create_stocks_loop_cons_ok r rs ids acc out rem heq with
      ⟨hmem, v, heq'⟩ | ⟨hmem, heq'⟩
    · rcases List.mem_cons.mp hw with rfl | hw'
      · intro hcon
        have hsub := create_stocks_loop_rem_subset rs _ _ _ _ heq'
        have : w.kod ∈ ids.erase w.kod := hsub hcon
        exact ((hnd.mem_erase_iff).mp this).1 rfl
      · exact ih _ _ _ _ (hnd.erase _) heq' w hw'
    · rcases List.mem_cons.mp hw with rfl | hw'
      · intro hcon
        exact hmem (create_stocks_loop_rem_subset rs _ _ _ _ heq' hcon)
      · exact ih _ _ _ _ hnd heq' w hw'

/-- Claim C1 (divergence witness): in the stock-then-price sequence of
`main`, `create_stocks` removes every matched identifier from the shared
`offer_ids` list in place, so `create_prices` runs on the leftovers and (on
a duplicate-free fetched list) produces no price entry at all; in
particular the record with code "A", present in the fetched list, yields a
stock entry but no price entry. -/
theorem c1_main_price_sync :
    (∀ (records : List DistRecord) (ids : List String) (stocks : List StockEntry)
        (prices : List PriceEntry), ids.Nodup →
        main_sync records ids = .ok (stocks, prices) → prices = [])
      ∧ main_sync [⟨"A", "5", "5990"⟩] ["A"] = .ok ([⟨"A", 5⟩], []) := by
  constructor
  · intro records ids stocks prices hnd hmain
    unfold main_sync at hmain
    cases hcs : create_stocks records ids with
    | error e => rw [hcs] at hmain; cases hmain
    | ok p =>
      obtain ⟨st, ids2⟩ := p
      rw [hcs] at hmain
      simp only [Except.ok.injEq, Prod.mk.injEq] at hmain
      unfold create_stocks at hcs
      cases hloop : create_stocks_loop records ids [] with
      | error e => rw [hloop] at hcs; cases hcs
      | ok q =>
        obtain ⟨out0, rem⟩ := q
        rw [hloop] at hcs
        simp only [Except.ok.injEq, Prod.mk.injEq] at hcs
        have hgone := create_stocks_loop_codes_gone records ids [] out0 rem hnd hloop
        rw [← hmain.2, ← hcs.2, create_prices_fst]
        rw [List.filter_eq_nil_iff.mpr ?_]
        · rfl
        · intro w hw
          simpa using hgone w hw
  · rfl

/-- Witness for C1: the hypotheses of the general part hold at the concrete
failing input (discharged by its own concrete conjunct). -/
theorem c1_witness : ([] : List PriceEntry) = [] :=
  c1_main_price_sync.1 [⟨"A", "5", "5990"⟩] ["A"] [⟨"A", 5⟩] [] (by decide)
    c1_main_price_sync.2

end Seller
